import Mathlib

/-!
Shallow embedding of the query-normalization and correlation layer of the
datadog CLI (time-range resolution, log pattern extraction and clustering,
live-tail deduplication, period comparison, trace-tree construction, and
span error summaries), together with proofs checking the natural-language
specification against the code.

Strings are modelled as `List Char` pipelines mirroring the JavaScript
regex-replace chains; instants are modelled as integer milliseconds since
the epoch (`Date#getTime`); JS `Number` arithmetic on counts is modelled
over `Int`/`Rat` (all values involved are exact).
-/

namespace DatadogCli

/-! ## Character classes (JS regex semantics, ASCII range)

JS `\w` is `[A-Za-z0-9_]`, `\d` is `[0-9]`; `\s` is modelled over the
ASCII whitespace characters (the inputs of interest contain no Unicode
whitespace). -/

def isDigitC (c : Char) : Bool := c.isDigit

def isHexC (c : Char) : Bool :=
  c.isDigit || (Char.ofNat 97 ≤ c && c ≤ Char.ofNat 102) || (Char.ofNat 65 ≤ c && c ≤ Char.ofNat 70)

def isWordC (c : Char) : Bool := c.isAlpha || c.isDigit || c = Char.ofNat 95

def isSpaceC (c : Char) : Bool :=
  c = Char.ofNat 32 || c = Char.ofNat 9 || c = Char.ofNat 10 ||
  c = Char.ofNat 13 || c = Char.ofNat 11 || c = Char.ofNat 12

/-- The JS word-boundary `\b` before the current character: it holds when
exactly one of (previous char, current char) is a word character; at the
start of the string it holds when the current char is a word character. -/
def boundaryBefore (prev : Option Char) (cur : Char) : Bool :=
  match prev with
  | none => isWordC cur
  | some p => isWordC p != isWordC cur

/-- Generic scanner for one JS `String#replace(regex, repl)` pass with a
global regex: at each source position try a match; on success emit the
replacement and continue after the matched chars, otherwise emit the
current char and advance by one.  `tryFn prev cs` returns the match length
(always ≥ 1) and the last source character of the match (used to track
word boundaries for the `\b`-anchored passes).  The fuel starts at
`cs.length + 1`, which is always sufficient since every step consumes at
least one source character. -/
def passGo (tryFn : Option Char → List Char → Option (Nat × Char)) (repl : List Char) :
    Nat → Option Char → List Char → List Char
  | 0, _, cs => cs
  | fuel+1, prev, cs =>
    match tryFn prev cs with
    | some (n, last) => repl ++ passGo tryFn repl fuel (some last) (cs.drop n)
    | none =>
      match cs with
      | [] => []
      | c :: rest => c :: passGo tryFn repl fuel (some c) rest

def runPass (tryFn : Option Char → List Char → Option (Nat × Char)) (repl : List Char)
    (cs : List Char) : List Char :=
  passGo tryFn repl (cs.length + 1) none cs

/-- Take exactly `n` chars satisfying `p`, returning the rest. -/
def takeClass (p : Char → Bool) : Nat → List Char → Option (List Char)
  | 0, cs => some cs
  | n+1, c :: cs => if p c then takeClass p n cs else none
  | _+1, [] => none

/-- `/[0-9a-f]{8}-[0-9a-f]{4}-[0-9a-f]{4}-[0-9a-f]{4}-[0-9a-f]{12}/gi`:
fixed-length 36-char match, no word boundaries. -/
def uuidTry (_ : Option Char) (cs : List Char) : Option (Nat × Char) := do
  let r1 ← takeClass isHexC 8 cs
  let r2 ← if r1.headD (Char.ofNat 0) = Char.ofNat 45 then some r1.tail else none
  let r3 ← takeClass isHexC 4 r2
  let r4 ← if r3.headD (Char.ofNat 0) = Char.ofNat 45 then some r3.tail else none
  let r5 ← takeClass isHexC 4 r4
  let r6 ← if r5.headD (Char.ofNat 0) = Char.ofNat 45 then some r5.tail else none
  let r7 ← takeClass isHexC 4 r6
  let r8 ← if r7.headD (Char.ofNat 0) = Char.ofNat 45 then some r7.tail else none
  let _ ← takeClass isHexC 12 r8
  some (36, (cs.take 36).getLastD (Char.ofNat 0))

/-- `/\b[0-9a-f]{32,}\b/gi`: a maximal hex run of length ≥ 32 whose
neighbours on both sides are non-word (shrinking the greedy run can never
restore the trailing `\b`, since every hex char is a word char). -/
def hexTry (prev : Option Char) (cs : List Char) : Option (Nat × Char) :=
  match cs with
  | [] => none
  | c :: _ =>
    if isHexC c && boundaryBefore prev c then
      let run := cs.takeWhile isHexC
      let rest := cs.drop run.length
      if run.length ≥ 32 && (rest.all (fun _ => true) && (rest.headD (Char.ofNat 32) |> isWordC |> not)) then
        some (run.length, run.getLastD c)
      else none
    else none

/-- `/\b\d+\b/g`: a maximal digit run with word boundaries on both sides. -/
def numTry (prev : Option Char) (cs : List Char) : Option (Nat × Char) :=
  match cs with
  | [] => none
  | c :: _ =>
    if isDigitC c && boundaryBefore prev c then
      let run := cs.takeWhile isDigitC
      let rest := cs.drop run.length
      if (rest.headD (Char.ofNat 32) |> isWordC |> not) then
        some (run.length, run.getLastD c)
      else none
    else none

/-- One `\d{1,3}` group followed by a literal dot, tried greedily
(3 digits first, then 2, then 1), returning (consumed, rest-after-dot). -/
def ipOctDot (cs : List Char) : List (Nat × List Char) :=
  [3, 2, 1].filterMap fun k =>
    match takeClass isDigitC k cs with
    | some rest =>
      if rest.headD (Char.ofNat 0) = Char.ofNat 46 then some (k + 1, rest.tail) else none
    | none => none

/-- The final `\d{1,3}\b` group of the IPv4 pattern. -/
def ipLastOct (cs : List Char) : List (Nat × List Char) :=
  [3, 2, 1].filterMap fun k =>
    match takeClass isDigitC k cs with
    | some rest =>
      if rest.headD (Char.ofNat 32) |> isWordC |> not then some (k, rest) else none
    | none => none

/-- `/\b\d{1,3}\.\d{1,3}\.\d{1,3}\.\d{1,3}\b/g` with greedy backtracking
over the four octet widths. -/
def ipTry (prev : Option Char) (cs : List Char) : Option (Nat × Char) :=
  match cs with
  | [] => none
  | c :: _ =>
    if isDigitC c && boundaryBefore prev c then
      let cands :=
        (ipOctDot cs).flatMap fun (n1, r1) =>
          (ipOctDot r1).flatMap fun (n2, r2) =>
            (ipOctDot r2).flatMap fun (n3, r3) =>
              (ipLastOct r3).map fun (n4, _) => n1 + n2 + n3 + n4
      match cands with
      | n :: _ => some (n, (cs.take n).getLastD c)
      | [] => none
    else none

def isEmailC (c : Char) : Bool := isWordC c || c = Char.ofNat 46 || c = Char.ofNat 45

/-- `/\b[\w.-]+@[\w.-]+\.\w+\b/g`.  The local part must be the maximal
`[\w.-]` run before an `@`; after the `@`, backtracking over the greedy
`[\w.-]+` selects the rightmost dot of the run that is followed by a word
char, and `\w+` then takes the maximal word run after that dot (the
trailing `\b` always holds there because the char after that run is
necessarily non-word). -/
def emailTry (prev : Option Char) (cs : List Char) : Option (Nat × Char) :=
  match cs with
  | [] => none
  | c :: _ =>
    if isEmailC c && boundaryBefore prev c then
      let p1 := cs.takeWhile isEmailC
      let rest1 := cs.drop p1.length
      if p1.length ≥ 1 && rest1.headD (Char.ofNat 0) = Char.ofNat 64 then
        let r := rest1.tail.takeWhile isEmailC
        let ks := ((List.range r.length).reverse).filter fun k =>
          decide (1 ≤ k) && r.getD k (Char.ofNat 0) = Char.ofNat 46 &&
            isWordC (r.getD (k+1) (Char.ofNat 0)) && decide (k + 1 < r.length)
        match ks with
        | k :: _ =>
          let w := (r.drop (k+1)).takeWhile isWordC
          let n := p1.length + 1 + (k + 1) + w.length
          some (n, w.getLastD c)
        | [] => none
      else none
    else none

/-- `/https?:\/\/[^\s]+/g`: the literal scheme, then a maximal nonempty
run of non-whitespace characters. -/
def urlTry (_ : Option Char) (cs : List Char) : Option (Nat × Char) :=
  let http : List Char := [Char.ofNat 104, Char.ofNat 116, Char.ofNat 116, Char.ofNat 112]
  let sep : List Char := [Char.ofNat 58, Char.ofNat 47, Char.ofNat 47]
  if cs.take 4 = http then
    let after := cs.drop 4
    let scheme : Option Nat :=
      if after.headD (Char.ofNat 0) = Char.ofNat 115 && after.tail.take 3 = sep then some 8
      else if after.take 3 = sep then some 7
      else none
    match scheme with
    | some n =>
      let t := (cs.drop n).takeWhile (fun c => !isSpaceC c)
      if t.length ≥ 1 then some (n + t.length, t.getLastD (Char.ofNat 0)) else none
    | none => none
  else none

/-- `/"[^"]*"/g` (and the single-quote variant via `quoteTry 39`): a quote
char, any run of non-quote chars, a closing quote. -/
def quoteTry (q : Nat) (_ : Option Char) (cs : List Char) : Option (Nat × Char) :=
  match cs with
  | [] => none
  | c :: rest =>
    if c = Char.ofNat q then
      match rest.findIdx? (fun d => d = Char.ofNat q) with
      | some i => some (i + 2, Char.ofNat q)
      | none => none
    else none

/-- `/\s+/g → " "`. -/
def wsTry (_ : Option Char) (cs : List Char) : Option (Nat × Char) :=
  match cs with
  | [] => none
  | c :: _ =>
    if isSpaceC c then
      let run := cs.takeWhile isSpaceC
      some (run.length, run.getLastD c)
    else none

/-- `String#trim` (over the modelled whitespace class). -/
def trimChars (cs : List Char) : List Char :=
  ((cs.dropWhile isSpaceC).reverse.dropWhile isSpaceC).reverse

/-- `extractPattern` (src/unnamed/part_001:688): the ordered substitution
chain UUID → HEX → N → IP → EMAIL → URL → "…" → '…' → whitespace
collapse → trim, each stage a global regex replace on the previous
stage's output. -/
def extractPattern (message : String) : String :=
  let a1 := runPass uuidTry "<UUID>".data message.data
  let a2 := runPass hexTry "<HEX>".data a1
  let a3 := runPass numTry "<N>".data a2
  let a4 := runPass ipTry "<IP>".data a3
  let a5 := runPass emailTry "<EMAIL>".data a4
  let a6 := runPass urlTry "<URL>".data a5
  let a7 := runPass (quoteTry 34) "\x22<STR>\x22".data a6
  let a8 := runPass (quoteTry 39) "\x27<STR>\x27".data a7
  let a9 := runPass wsTry " ".data a8
  String.mk (trimChars a9)

/-! ## Time parsing

Instants are integer milliseconds since the epoch (`Date#getTime`);
`Date#toISOString` is an order isomorphism onto the ISO strings the code
returns, so ordering facts are stated on the integer instants. -/

/-- Decimal value of a digit string (`parseInt(value, 10)`). -/
def natOfDigits (ds : List Char) : Nat :=
  ds.foldl (fun n c => 10 * n + (c.toNat - 48)) 0

/-- Anchored match of `^(\d+)(unit)$` for a one-char unit class: the whole
string is one or more digits followed by a single unit character. -/
def suffixNumMatch (units : List Char) (s : String) : Option (Nat × Char) :=
  match s.data.reverse with
  | u :: rest =>
    if units.contains u && !rest.isEmpty && rest.all isDigitC then
      some (natOfDigits rest.reverse, u)
    else none
  | [] => none

/-- `^(\d+)([mhd])$` — the relative-time pattern of `parseRelativeTime`
(src/unnamed/part_001:611). Note: no `s` unit. -/
def relMatch (s : String) : Option (Nat × Char) :=
  suffixNumMatch [Char.ofNat 109, Char.ofNat 104, Char.ofNat 100] s

/-- Modelled from the spec: the absolute date-time parse fallback is the
JS runtime's `new Date(timeStr)` (not part of this repository); per the
spec ("attempt absolute date-time parse; if that also fails, fall back to
now") it is modelled as accepting exactly ISO-8601 `YYYY-MM-DDTHH:MM:SSZ`
strings, valued by the standard civil-calendar formula, and rejecting
everything else. -/
def jsDateParse (s : String) : Option Int :=
  match s.data with
  | [y1, y2, y3, y4, d1, m1, m2, d2, a1, a2, t, h1, h2, c1, n1, n2, c2, s1, s2, z] =>
    if [y1, y2, y3, y4, m1, m2, a1, a2, h1, h2, n1, n2, s1, s2].all isDigitC &&
        d1 = Char.ofNat 45 && d2 = Char.ofNat 45 && t = Char.ofNat 84 &&
        c1 = Char.ofNat 58 && c2 = Char.ofNat 58 && z = Char.ofNat 90 then
      let y : Int := natOfDigits [y1, y2, y3, y4]
      let mo : Int := natOfDigits [m1, m2]
      let da : Int := natOfDigits [a1, a2]
      let yy : Int := if mo ≤ 2 then y - 1 else y
      let era : Int := yy / 400
      let yoe : Int := yy - era * 400
      let mp : Int := if mo > 2 then mo - 3 else mo + 9
      let doy : Int := (153 * mp + 2) / 5 + da - 1
      let doe : Int := yoe * 365 + yoe / 4 - yoe / 100 + doy
      let days : Int := era * 146097 + doe - 719468
      let secs : Int := natOfDigits [h1, h2] * 3600 + natOfDigits [n1, n2] * 60 +
        natOfDigits [s1, s2]
      some ((days * 86400 + secs) * 1000)
    else none
  | _ => none

/-- `parseRelativeTime` (src/unnamed/part_001:610): relative `\d+[mhd]`
strings are subtracted from "now"; otherwise attempt an absolute parse;
otherwise fall back to "now". -/
def parseRelativeTime (timeStr : String) (now : Int) : Int :=
  match relMatch timeStr with
  | none =>
    match jsDateParse timeStr with
    | some parsed => parsed
    | none => now
  | some (num, unit) =>
    if unit = Char.ofNat 109 then now - num * 60 * 1000
    else if unit = Char.ofNat 104 then now - num * 60 * 60 * 1000
    else if unit = Char.ofNat 100 then now - num * 24 * 60 * 60 * 1000
    else now

/-- `parseTimeRange` (src/unnamed/part_001:596): absent `to` resolves to
now, absent `from` to now − 15 minutes. -/
def parseTimeRange (frmOpt toOpt : Option String) (now : Int) : Int × Int :=
  let toDate := match toOpt with
    | some t => parseRelativeTime t now
    | none => now
  let fromDate := match frmOpt with
    | some f => parseRelativeTime f now
    | none => now - 15 * 60 * 1000
  (fromDate, toDate)

/-! ## Durations and period comparison -/

/-- `^(\d+)([smhd])$` — the duration pattern of `parseDurationToMs`. -/
def durMatch (s : String) : Option (Nat × Char) :=
  suffixNumMatch [Char.ofNat 115, Char.ofNat 109, Char.ofNat 104, Char.ofNat 100] s

/-- `parseDurationToMs` (src/unnamed/part_001:661): defaults to 5 minutes
(300000 ms) whenever the pattern does not match. -/
def parseDurationToMs (duration : String) : Nat :=
  match durMatch duration with
  | none => 5 * 60 * 1000
  | some (num, unit) =>
    if unit = Char.ofNat 115 then num * 1000
    else if unit = Char.ofNat 109 then num * 60 * 1000
    else if unit = Char.ofNat 104 then num * 60 * 60 * 1000
    else if unit = Char.ofNat 100 then num * 24 * 60 * 60 * 1000
    else 5 * 60 * 1000

/-- The current/previous windows computed by `comparePeriods`
(src/unnamed/part_001:464-470). -/
def comparePeriodsWindows (period : String) (now : Int) : (Int × Int) × (Int × Int) :=
  let periodMs : Int := parseDurationToMs period
  ((now - periodMs, now), (now - periodMs * 2, now - periodMs))

/-- The before/after context windows computed by `getLogContext`
(src/unnamed/part_001:323-330); both duration options default to "5m". -/
def getLogContextWindows (beforeOpt afterOpt : Option String) (target : Int) :
    (Int × Int) × (Int × Int) :=
  let beforeMs : Int := parseDurationToMs (beforeOpt.getD "5m")
  let afterMs : Int := parseDurationToMs (afterOpt.getD "5m")
  ((target - beforeMs, target), (target, target + afterMs))

structure ChangeStats where
  absolute : Int
  percentage : Rat
  deriving Repr, DecidableEq

/-- JS `Math.round`: round half toward positive infinity. -/
def jsRound (q : Rat) : Int := Int.floor (q + 1 / 2)

/-- The delta statistics of `comparePeriods` (src/unnamed/part_001:490-497):
`absolute = current − previous`; the percentage branches on
`previous > 0` then `current > 0`; `Math.round(p * 10) / 10` keeps one
decimal place. -/
def comparePeriodsChange (currentCount previousCount : Nat) : ChangeStats :=
  let absolute : Int := (currentCount : Int) - (previousCount : Int)
  let percentage : Rat :=
    if previousCount > 0 then ((absolute : Rat) / (previousCount : Rat)) * 100
    else if currentCount > 0 then 100 else 0
  ⟨absolute, (jsRound (percentage * 10) : Rat) / 10⟩

/-! ## Live tail deduplication -/

structure LogRec where
  id : String
  timestamp : String
  deriving Repr, DecidableEq

structure TailState where
  seenIds : List String
  lastTimestamp : String
  deriving Repr, DecidableEq

/-- Processing of one returned record inside a poll cycle
(src/unnamed/part_001:244-253): unseen ids are appended to the
insertion-ordered dedup set and the watermark only moves forward. -/
def tailStep (st : TailState) (log : LogRec) : TailState :=
  if st.seenIds.contains log.id then st
  else
    { seenIds := st.seenIds ++ [log.id]
      lastTimestamp :=
        if st.lastTimestamp < log.timestamp then log.timestamp else st.lastTimestamp }

def tailDedup (st : TailState) (page : List LogRec) : TailState :=
  page.foldl tailStep st

/-- One completed poll cycle of `tailLogs` (src/unnamed/part_001:243-263):
process the page, then if the dedup set exceeds 10000 entries keep only
the most recent 5000 (`Array.from(seenIds).slice(-5000)`). -/
def tailPollCycle (st : TailState) (page : List LogRec) : TailState :=
  let mid := tailDedup st page
  if mid.seenIds.length > 10000 then
    { mid with seenIds := mid.seenIds.drop (mid.seenIds.length - 5000) }
  else mid

/-! ## Pattern clustering (`getLogPatterns`) -/

structure PatternBucket where
  pattern : String
  count : Nat
  sample : String
  deriving Repr, DecidableEq

/-- One message into the insertion-ordered pattern map
(src/unnamed/part_001:544-555): an existing key's count is bumped in
place, a new key is appended with the message as sample. -/
def clusterStep (acc : List PatternBucket) (message : String) : List PatternBucket :=
  if acc.any (fun c => c.pattern = extractPattern message) then
    acc.map (fun c =>
      if c.pattern = extractPattern message then { c with count := c.count + 1 } else c)
  else acc ++ [⟨extractPattern message, 1, message⟩]

/-- The pattern map's entries in insertion (first-seen) order. -/
def patternClusters (messages : List String) : List PatternBucket :=
  messages.foldl clusterStep []

/-- The JS sort comparator `(a, b) => b.count - a.count` as a total
preorder (descending by count); `Array#sort` is stable, so the sort is
modelled by the stable `List.mergeSort`. -/
def countGE (a b : PatternBucket) : Bool := decide (b.count ≤ a.count)

/-- The cluster list produced by `getLogPatterns`
(src/unnamed/part_001:557-564) from the fetched messages: sort descending
by count (stable) and always `slice(0, 50)`.  The caller's `limit`
(default 500) is only the page size of the fetch, not a result cap. -/
def getLogPatternsOf (messages : List String) : List PatternBucket :=
  ((patternClusters messages).mergeSort countGE).take 50

/-- Modelled from the spec (refinement target for C7): "Output is all
clusters sorted by descending count, capped to the result limit" with the
caller-supplied cap. -/
def specLogPatternsOf (limit : Nat) (messages : List String) : List PatternBucket :=
  ((patternClusters messages).mergeSort countGE).take limit

/-! ## Trace tree (`buildTraceTree`, src/lib/output.ts:534-581)

The pointer-linked `TraceNode` graph is represented flat: spans are
addressed by their position in the input list, `spanMapOf` is the JS
`Map` (last insertion wins), `buildLinks` is the parent/child/roots pass,
and `depthMapOf` is the `setDepth` depth-first traversal seeded at each
root.  The children-sorting pass mutates only the order of child lists
and touches neither roots nor depths, so it is not modelled. -/

structure SpanRec where
  spanId : String
  parentId : Option String
  timestamp : String
  deriving Repr, DecidableEq

/-- The node-creation loop of `buildTraceTree`, with `j` the index of the
current span: `spanMap.set(span.spanId, node)` — a later insertion
overwrites an earlier one (JS `Map#set`). -/
def spanMapGo (j : Nat) : List SpanRec → (String → Option Nat) → (String → Option Nat)
  | [], f => f
  | s :: rest, f =>
    spanMapGo (j + 1) rest (fun id => if id = s.spanId then some j else f id)

/-- The `spanMap` after the node-creation loop: span id ↦ index of the
last span carrying that id. -/
def spanMapOf (spans : List SpanRec) : String → Option Nat :=
  spanMapGo 0 spans (fun _ => none)

structure TreeLinks where
  children : Nat → List Nat
  roots : List Nat

/-- One iteration of the parent-child loop: the span's node (looked up
through the map) is attached to its parent's child list when the parent
id is present and found, otherwise pushed onto the roots. -/
def linkStep (m : String → Option Nat) (j : Nat) (s : SpanRec) (st : TreeLinks) : TreeLinks :=
  match s.parentId with
  | some pid =>
    match m pid with
    | some p =>
      { st with children := fun q =>
          if q = p then st.children q ++ [(m s.spanId).getD j] else st.children q }
    | none => { st with roots := st.roots ++ [(m s.spanId).getD j] }
  | none => { st with roots := st.roots ++ [(m s.spanId).getD j] }

def buildLinksGo (m : String → Option Nat) (j : Nat) :
    List SpanRec → TreeLinks → TreeLinks
  | [], st => st
  | s :: rest, st => buildLinksGo m (j + 1) rest (linkStep m j s st)

def buildLinks (spans : List SpanRec) : TreeLinks :=
  buildLinksGo (spanMapOf spans) 0 spans ⟨fun _ => [], []⟩

/-- Placeholder record for out-of-range index lookups. -/
def dummySpan : SpanRec := ⟨"", none, ""⟩

/-- The parent of the span at index `j`, as the depth pass sees it: the
declared parent id looked up through the span map (`none` when the parent
id is absent or refers to no processed span). -/
def parentIdx (spans : List SpanRec) (j : Nat) : Option Nat :=
  match (spans.getD j dummySpan).parentId with
  | some pid => spanMapOf spans pid
  | none => none

/-- The recursive `setDepth(node, depth)`: set the node's depth, then
recurse into its children with depth + 1.  The fuel only bounds the
recursion that JS performs unboundedly; `spans.length` fuel is enough for
every traversal that terminates at all (distinct-id inputs). -/
def setDepthGo (children : Nat → List Nat) : Nat → (Nat → Nat) → Nat → Nat → (Nat → Nat)
  | 0, dmap, _, _ => dmap
  | fuel+1, dmap, idx, d =>
    let dmap' := fun q => if q = idx then d else dmap q
    (children idx).foldl (fun m c => setDepthGo children fuel m c (d + 1)) dmap'

/-- Final depths after `for (const root of roots) setDepth(root, 0)`;
nodes never visited keep the initial depth 0. -/
def depthMapOf (spans : List SpanRec) : Nat → Nat :=
  let links := buildLinks spans
  links.roots.foldl (fun m r => setDepthGo links.children spans.length m r 0) (fun _ => 0)

/-- Reachability along child links (the nodes of the returned forest are
exactly the nodes reachable from some root). -/
inductive ChildReach (children : Nat → List Nat) : Nat → Nat → Prop
  | refl (x : Nat) : ChildReach children x x
  | step {x y z : Nat} : ChildReach children x y → z ∈ children y → ChildReach children x z

/-- Reachability along child links remembering the level (the depth the
traversal assigns). -/
inductive ChildReachD (children : Nat → List Nat) : Nat → Nat → Nat → Prop
  | refl (x : Nat) : ChildReachD children x x 0
  | step {x y z : Nat} {d : Nat} :
      ChildReachD children x y d → z ∈ children y → ChildReachD children x z (d + 1)

/-! ## Span error summary (`getSpanErrors`, src/lib/output.ts:296-378) -/

structure SpanBucket where
  key : Option String
  count : Option Nat
  deriving Repr, DecidableEq

/-- The `byService` list built from the service aggregation response:
buckets with a key contribute `(key, count ?? 0)` in response order. -/
def spanErrorsByService (buckets : List SpanBucket) : List (String × Nat) :=
  buckets.foldl
    (fun acc b =>
      match b.key with
      | some s => acc ++ [(s, b.count.getD 0)]
      | none => acc)
    []

/-- `const total = byService.reduce((sum, s) => sum + s.count, 0)`
(src/lib/output.ts:369). -/
def spanErrorsTotal (buckets : List SpanBucket) : Nat :=
  (spanErrorsByService buckets).foldl (fun sum s => sum + s.2) 0

/-- The shape of a backend query: an aggregation (with an optional
group-by facet and bucket limit) or a plain list query. -/
inductive BackendReq
  | aggregate (query : String) (groupBy : Option (String × Nat))
  | listEntries (query : String) (limit : Nat)
  deriving Repr, DecidableEq

/-- The three concurrent requests `getSpanErrors` issues
(src/lib/output.ts:305-337): two 20-bucket group-by aggregations and one
20-row span list — no group-by-free total aggregation. -/
def getSpanErrorsRequests (baseQuery : String) : List BackendReq :=
  [.aggregate baseQuery (some ("service", 20)),
   .aggregate baseQuery (some ("resource_name", 20)),
   .listEntries baseQuery 20]

/-- The three concurrent aggregations the log-side `getErrorSummary`
issues (src/unnamed/part_001:378-399): the third has no `groupBy` — it is
the separate total-count query. -/
def getErrorSummaryRequests (baseQuery : String) : List BackendReq :=
  [.aggregate baseQuery (some ("service", 20)),
   .aggregate baseQuery (some ("@error.kind", 20)),
   .aggregate baseQuery none]

/-- An aggregation with no group-by: the total-count style of request. -/
def isTotalAggregate : BackendReq → Bool
  | .aggregate _ none => true
  | _ => false

/-! ## Auxiliary definitions used by the claim statements -/

/-- Milliseconds per relative-time unit (`m`/`h`/`d` as in the
`parseRelativeTime` switch). -/
def unitMs (u : Char) : Nat :=
  if u = Char.ofNat 109 then 60 * 1000
  else if u = Char.ofNat 104 then 60 * 60 * 1000
  else if u = Char.ofNat 100 then 24 * 60 * 60 * 1000
  else 0

/-- Index of the first message whose masked key is `p`. -/
def firstSeenIdx (messages : List String) (p : String) : Nat :=
  messages.findIdx (fun m => extractPattern m = p)

/-- A dedup set holding 10001 distinct ids (a state reachable only
transiently, used to exercise the truncation branch). -/
def bigSeen : List String := (List.range 10001).map (fun n => toString n)

/-- 51 two-letter messages with 51 distinct masked keys (none of them
contains a maskable token, so each is its own cluster). -/
def msgs51 : List String :=
  (List.range 51).map (fun i => String.mk [Char.ofNat (105 + i % 8), Char.ofNat (105 + i / 8)])

/-- The spec's running example input for `extractPattern`. -/
def specExampleMsg : String := "User 123e4567-e89b-12d3-a456-426614174000 failed at 10.0.0.1"

/-- Invariant of the pattern-map fold: `acc` is the cluster list after
processing the messages `pre`, in first-seen order, with first-seen
samples and exact multiplicities. -/
def ClustersInv (pre : List String) (acc : List PatternBucket) : Prop :=
  (∀ c ∈ acc, pre.find? (fun m => extractPattern m = c.pattern) = some c.sample) ∧
  (∀ c ∈ acc, c.count = (pre.filter (fun m => extractPattern m = c.pattern)).length) ∧
  (∀ p : String, acc.any (fun c => c.pattern = p) = pre.any (fun m => extractPattern m = p)) ∧
  acc.Pairwise (fun x y => firstSeenIdx pre x.pattern < firstSeenIdx pre y.pattern) ∧
  (∀ c ∈ acc, firstSeenIdx pre c.pattern < pre.length)

/-- Three spans with a duplicate span id `"a"`: the roots push of span 0
resolves through the span map to index 1 (the later `"a"`), which is also
attached as a child of span 2. -/
def exSpansT : List SpanRec := [⟨"a", none, ""⟩, ⟨"a", some "b", ""⟩, ⟨"b", none, ""⟩]

/-- A duplicate-free three-span chain root → c1 → c2. -/
def wSpansT : List SpanRec := [⟨"r", none, "t1"⟩, ⟨"c1", some "r", "t2"⟩, ⟨"c2", some "c1", "t3"⟩]

end DatadogCli

/-! # Claim theorems -/

namespace DatadogCli

/-- Claim C1: the spec's example asserts
`extractPattern "User 123e4567-…-426614174000 failed at 10.0.0.1"`
returns `"User <UUID> failed at <IP>"`; the code instead masks the
IPv4 octets as bare integers first, so the IP rule never fires and the
actual result is `"User <UUID> failed at <N>.<N>.<N>.<N>"`. -/
theorem extractPattern_spec_example_behavior :
    extractPattern specExampleMsg = "User <UUID> failed at <N>.<N>.<N>.<N>" ∧
    extractPattern specExampleMsg ≠ "User <UUID> failed at <IP>" := by
  constructor
  · decide
  · decide

/-- Claim C2 (counterexample): a seconds-suffixed relative string is not
resolved as `now − N` seconds — `"60s"` fails the `[mhd]` pattern, fails
the absolute-date parse, and silently falls back to "now". -/
theorem parseRelativeTime_seconds_counterexample :
    parseRelativeTime "60s" 1000000 = 1000000 ∧
    parseRelativeTime "60s" 1000000 ≠ 1000000 - 60 * 1000 := by
  constructor
  · decide
  · decide

/-- Computation rule for the anchored `^(\d+)(unit)$` match on a
well-shaped string. -/
theorem suffixNumMatch_append (units : List Char) (ds : List Char) (u : Char)
    (hds : ds ≠ []) (hall : ds.all isDigitC = true) (hu : u ∈ units) :
    suffixNumMatch units (String.mk (ds ++ [u])) = some (natOfDigits ds, u) := by
  unfold suffixNumMatch
  have hrev : (String.mk (ds ++ [u])).data.reverse = u :: ds.reverse := by
    simp [String.mk]
  rw [hrev]
  have hne : ds.reverse.isEmpty = false := by
    simpa [List.isEmpty_iff] using hds
  have hall' : ds.reverse.all isDigitC = true := by
    simpa [List.all_reverse] using hall
  simp [hne, hall', hu]

/-- Claim C2 (amended): for relative strings `"<N><unit>"` with
unit ∈ {m, h, d} (written as a nonempty digit string followed by the unit
character), resolving against a fixed "now" yields exactly
`now − N · unit_milliseconds`. -/
theorem parseRelativeTime_relative_exact (ds : List Char) (u : Char) (now : Int)
    (hds : ds ≠ []) (hall : ds.all isDigitC = true)
    (hu : u ∈ [Char.ofNat 109, Char.ofNat 104, Char.ofNat 100]) :
    parseRelativeTime (String.mk (ds ++ [u])) now = now - natOfDigits ds * unitMs u := by
  have ne1 : ¬ (Char.ofNat 104 = Char.ofNat 109) := by decide
  have ne2 : ¬ (Char.ofNat 100 = Char.ofNat 109) := by decide
  have ne3 : ¬ (Char.ofNat 100 = Char.ofNat 104) := by decide
  simp only [List.mem_cons, List.not_mem_nil, or_false] at hu
  rcases hu with rfl | rfl | rfl
  · have hrel := suffixNumMatch_append [Char.ofNat 109, Char.ofNat 104, Char.ofNat 100]
      ds (Char.ofNat 109) hds hall (by decide)
    unfold parseRelativeTime relMatch
    rw [hrel]
    dsimp only
    rw [if_pos rfl]
    unfold unitMs
    rw [if_pos rfl]
    push_cast
    ring
  · have hrel := suffixNumMatch_append [Char.ofNat 109, Char.ofNat 104, Char.ofNat 100]
      ds (Char.ofNat 104) hds hall (by decide)
    unfold parseRelativeTime relMatch
    rw [hrel]
    dsimp only
    rw [if_neg ne1, if_pos rfl]
    unfold unitMs
    rw [if_neg ne1, if_pos rfl]
    push_cast
    ring
  · have hrel := suffixNumMatch_append [Char.ofNat 109, Char.ofNat 104, Char.ofNat 100]
      ds (Char.ofNat 100) hds hall (by decide)
    unfold parseRelativeTime relMatch
    rw [hrel]
    dsimp only
    rw [if_neg ne2, if_neg ne3, if_pos rfl]
    unfold unitMs
    rw [if_neg ne2, if_neg ne3, if_pos rfl]
    push_cast
    ring

/-- Claim C2 (witness): `"2h"` against now = 1705320000000 resolves to
two hours earlier. -/
theorem parseRelativeTime_relative_exact_witness :
    parseRelativeTime (String.mk ([Char.ofNat 50] ++ [Char.ofNat 104])) 1705320000000 =
      1705320000000 - natOfDigits [Char.ofNat 50] * unitMs (Char.ofNat 104) :=
  parseRelativeTime_relative_exact [Char.ofNat 50] (Char.ofNat 104) 1705320000000
    (by decide) (by decide) (by decide)

/-- Claim C3 (counterexample): with `from` absent and `to = "1d"`, the
resolved range has `from = now − 15 min` strictly after
`to = now − 1 day`, violating the `from ≤ to` invariant. -/
theorem parseTimeRange_from_le_to_counterexample :
    ¬ ((parseTimeRange none (some "1d") 1700000000000).1 ≤
        (parseTimeRange none (some "1d") 1700000000000).2) := by
  decide

/-- Relative or unparseable time strings always resolve to an instant at
or before "now". -/
theorem parseRelativeTime_le_now (f : String) (now : Int)
    (h : relMatch f ≠ none ∨ jsDateParse f = none) :
    parseRelativeTime f now ≤ now := by
  unfold parseRelativeTime
  cases hrel : relMatch f with
  | none =>
    rcases h with h | h
    · exact absurd hrel h
    · rw [h]
  | some p =>
    obtain ⟨num, unit⟩ := p
    dsimp only
    split_ifs <;> omega

/-- Claim C3 (amended): the `from ≤ to` invariant holds whenever `to` is
absent (resolving to "now") and `from` is absent, relative, or
unparseable; it fails in general (see the counterexample, where a
relative `to` precedes the defaulted `from`). -/
theorem parseTimeRange_from_le_to_of_to_absent (frmOpt : Option String) (now : Int)
    (h : frmOpt = none ∨ ∃ f, frmOpt = some f ∧ (relMatch f ≠ none ∨ jsDateParse f = none)) :
    (parseTimeRange frmOpt none now).1 ≤ (parseTimeRange frmOpt none now).2 := by
  rcases h with h | ⟨f, rfl, hf⟩
  · subst h
    show now - 15 * 60 * 1000 ≤ now
    omega
  · show parseRelativeTime f now ≤ now
    exact parseRelativeTime_le_now f now hf

/-- Claim C3 (witness): `from = "2h"`, `to` absent. -/
theorem parseTimeRange_from_le_to_witness :
    (parseTimeRange (some "2h") none 1705320000000).1 ≤
      (parseTimeRange (some "2h") none 1705320000000).2 :=
  parseTimeRange_from_le_to_of_to_absent (some "2h") 1705320000000
    (Or.inr ⟨"2h", rfl, Or.inl (by decide)⟩)

/-- Claim C5: after any completed poll cycle the dedup set holds at most
10000 ids, and whenever it exceeded 10000 during the cycle it ends the
cycle as exactly the 5000 most recently added ids (a suffix of length
5000 of the insertion-ordered set before truncation). -/
theorem tailPollCycle_bounded (st : TailState) (page : List LogRec) :
    (tailPollCycle st page).seenIds.length ≤ 10000 ∧
    ((tailDedup st page).seenIds.length > 10000 →
      (tailPollCycle st page).seenIds.length = 5000 ∧
      List.IsSuffix (tailPollCycle st page).seenIds (tailDedup st page).seenIds) := by
  unfold tailPollCycle
  by_cases h : (tailDedup st page).seenIds.length > 10000
  · rw [if_pos h]
    refine ⟨?_, fun _ => ⟨?_, ?_⟩⟩
    · dsimp only
      rw [List.length_drop]
      omega
    · dsimp only
      rw [List.length_drop]
      omega
    · dsimp only
      exact List.drop_suffix _ _
  · rw [if_neg h]
    exact ⟨by omega, fun hc => absurd hc h⟩

/-- Claim C5 (witness): a cycle starting from a transient 10001-id set
with an empty page truncates to its 5000 most recent ids. -/
theorem tailPollCycle_bounded_witness :
    (tailDedup ⟨bigSeen, ""⟩ []).seenIds.length > 10000 ∧
    (tailPollCycle ⟨bigSeen, ""⟩ []).seenIds.length = 5000 ∧
    List.IsSuffix (tailPollCycle ⟨bigSeen, ""⟩ []).seenIds (tailDedup ⟨bigSeen, ""⟩ []).seenIds := by
  have hlen : (tailDedup ⟨bigSeen, ""⟩ ([] : List LogRec)).seenIds.length = 10001 := by
    unfold tailDedup
    rw [List.foldl_nil]
    dsimp only
    unfold bigSeen
    simp only [List.length_map, List.length_range]
  have h := tailPollCycle_bounded ⟨bigSeen, ""⟩ []
  have h2 := h.2 (by omega)
  exact ⟨by omega, h2.1, h2.2⟩

/-- Claim C6: `comparePeriods` computes `absolute = current − previous`;
the percentage is `(absolute/previous)·100` when `previous > 0`, else 100
when `current > 0`, else 0, rounded (JS `Math.round`, half toward +∞) to
one decimal place; in particular `(previous 0, current 5)` gives
`(5, 100)` and `(previous 200, current 150)` gives `(−50, −25.0)`. -/
theorem comparePeriods_change_spec (currentCount previousCount : Nat) :
    (comparePeriodsChange currentCount previousCount).absolute =
      (currentCount : Int) - previousCount ∧
    (previousCount > 0 →
      (comparePeriodsChange currentCount previousCount).percentage =
        (⌊((currentCount : Rat) - previousCount) / previousCount * 1000 + 1 / 2⌋ : Rat) / 10) ∧
    (previousCount = 0 → currentCount > 0 →
      (comparePeriodsChange currentCount previousCount).percentage = 100) ∧
    (previousCount = 0 → currentCount = 0 →
      (comparePeriodsChange currentCount previousCount).percentage = 0) ∧
    (∃ k : Int, (comparePeriodsChange currentCount previousCount).percentage = (k : Rat) / 10) ∧
    comparePeriodsChange 5 0 = ⟨5, 100⟩ ∧
    comparePeriodsChange 150 200 = ⟨-50, -25⟩ := by
  refine ⟨rfl, ?_, ?_, ?_, ?_, ?_, ?_⟩
  · intro hp
    simp only [comparePeriodsChange, jsRound, hp, if_pos]
    congr 2
    push_cast
    ring
  · intro hp hc
    simp only [comparePeriodsChange, jsRound, hp, hc]
    norm_num
  · intro hp hc
    simp only [comparePeriodsChange, jsRound, hp, hc]
    norm_num
  · exact ⟨jsRound ((if previousCount > 0 then
      (((currentCount : Int) - previousCount : Int) : Rat) / previousCount * 100
      else if currentCount > 0 then 100 else 0) * 10), rfl⟩
  · simp [comparePeriodsChange, jsRound]; norm_num
  · simp [comparePeriodsChange, jsRound]; norm_num

/-- Claim C6 (witness): the `(200, 150)` example through the general
branch. -/
theorem comparePeriods_change_spec_witness :
    (comparePeriodsChange 150 200).percentage =
      (⌊((150 : Rat) - 200) / 200 * 1000 + 1 / 2⌋ : Rat) / 10 ∧
    (comparePeriodsChange 150 200).absolute = (150 : Int) - 200 := by
  have h := comparePeriods_change_spec 150 200
  exact ⟨by simpa using h.2.1 (by norm_num), by simpa using h.1⟩

/-- Claim C8 (counterexample): masking is not idempotent —
`"42http://x"` masks to `"42<URL>"` (the digits are glued to a word
character, so `\b\d+\b` cannot fire), but re-masking yields
`"<N><URL>"` because the URL placeholder exposed a fresh word boundary
after the digits. -/
theorem extractPattern_idempotent_counterexample :
    extractPattern "42http://x" = "42<URL>" ∧
    extractPattern (extractPattern "42http://x") ≠ extractPattern "42http://x" := by
  constructor
  · decide
  · decide

/-- Claim C8 (amended): the masking pipeline is idempotent on templates
whose placeholders do not abut residual maskable text — in particular
re-masking the already-masked spec example leaves it unchanged — but not
for all messages (see the counterexample). -/
theorem extractPattern_idempotent_on_example :
    extractPattern (extractPattern specExampleMsg) = extractPattern specExampleMsg := by
  decide

/-- Claim C9: every duration string rejected by `^(\d+)([smhd])$`
(including the empty string) yields the 5-minute default 300000 ms, so a
malformed period makes `comparePeriods` silently compare two 5-minute
windows, and malformed context durations make `getLogContext` fall back
to 5-minute before/after windows. -/
theorem parseDurationToMs_default_5m (s : String) (hs : durMatch s = none) :
    parseDurationToMs s = 300000 ∧
    (∀ now : Int, comparePeriodsWindows s now =
      ((now - 300000, now), (now - 600000, now - 300000))) ∧
    (∀ t : String, durMatch t = none → ∀ target : Int,
      getLogContextWindows (some s) (some t) target =
        ((target - 300000, target), (target, target + 300000))) := by
  have hms : parseDurationToMs s = 300000 := by
    unfold parseDurationToMs
    rw [hs]
  refine ⟨hms, fun now => ?_, fun t ht target => ?_⟩
  · unfold comparePeriodsWindows
    rw [hms]
    norm_num
  · have hmt : parseDurationToMs t = 300000 := by
      unfold parseDurationToMs
      rw [ht]
    unfold getLogContextWindows
    simp only [Option.getD_some]
    rw [hms, hmt]
    norm_num

/-- Claim C9 (witness): the malformed strings `"banana"` and `""`. -/
theorem parseDurationToMs_default_5m_witness :
    parseDurationToMs "banana" = 300000 ∧
    comparePeriodsWindows "banana" 0 = ((-300000, 0), (-600000, -300000)) ∧
    getLogContextWindows (some "banana") (some "") 1000 =
      ((1000 - 300000, 1000), (1000, 1000 + 300000)) := by
  have h := parseDurationToMs_default_5m "banana" (by decide)
  exact ⟨h.1, by simpa using h.2.1 0, by simpa using h.2.2 "" (by decide) 1000⟩

/-- The count-reduce of a pair list equals the sum of its counts. -/
theorem foldl_add_snd (l : List (String × Nat)) (a : Nat) :
    l.foldl (fun sum s => sum + s.2) a = a + (l.map (fun s => s.2)).sum := by
  induction l generalizing a with
  | nil => simp
  | cons x xs ih => simp [List.foldl_cons, ih (a + x.2)]; omega

/-- Claim C10: the span error summary's `total` is the sum of its
`byService` bucket counts (a 20-bucket group-by), and `getSpanErrors`
issues no group-by-free total aggregation, unlike the log-side
`getErrorSummary` whose third concurrent request is exactly such a total
query. -/
theorem getSpanErrors_total_is_sum (buckets : List SpanBucket) (q : String) :
    spanErrorsTotal buckets = ((spanErrorsByService buckets).map (fun s => s.2)).sum ∧
    (getSpanErrorsRequests q).all (fun r => !isTotalAggregate r) = true ∧
    (getErrorSummaryRequests q).any isTotalAggregate = true ∧
    (getSpanErrorsRequests q).head? = some (.aggregate q (some ("service", 20))) := by
  refine ⟨?_, rfl, rfl, rfl⟩
  unfold spanErrorsTotal
  rw [foldl_add_snd]
  omega

/-! ## Claim C7: pattern clustering -/

/-- The bump/identity map applied on a hit preserves patterns. -/
theorem clusterBump_pattern (c : PatternBucket) (p : String) :
    (if c.pattern = p then { c with count := c.count + 1 } else c).pattern = c.pattern := by
  by_cases h : c.pattern = p <;> simp [h]

/-- The bump/identity map applied on a hit preserves samples. -/
theorem clusterBump_sample (c : PatternBucket) (p : String) :
    (if c.pattern = p then { c with count := c.count + 1 } else c).sample = c.sample := by
  by_cases h : c.pattern = p <;> simp [h]

/-- Bumping counts does not change which patterns are present. -/
theorem any_pattern_map (acc : List PatternBucket) (p q : String) :
    ((acc.map (fun c => if c.pattern = p then { c with count := c.count + 1 } else c)).any
      (fun c => c.pattern = q)) = acc.any (fun c => c.pattern = q) := by
  induction acc with
  | nil => rfl
  | cons x xs ih =>
    simp only [List.map_cons, List.any_cons, ih]
    congr 1
    rw [clusterBump_pattern]

/-- Appending one message to the processed prefix preserves the
first-seen index of every key already present. -/
theorem firstSeenIdx_append_of_found (pre : List String) (m : String) (p : String)
    (h : firstSeenIdx pre p < pre.length) :
    firstSeenIdx (pre ++ [m]) p = firstSeenIdx pre p := by
  unfold firstSeenIdx at *
  rw [List.findIdx_append, if_pos h]

/-- The first-seen index of a fresh key lands on the newly appended
message. -/
theorem firstSeenIdx_append_of_fresh (pre : List String) (m : String)
    (h : pre.any (fun x => extractPattern x = extractPattern m) = false) :
    firstSeenIdx (pre ++ [m]) (extractPattern m) = pre.length := by
  unfold firstSeenIdx
  rw [List.findIdx_append]
  have hnf : pre.findIdx (fun x => extractPattern x = extractPattern m) = pre.length := by
    rw [List.findIdx_eq_length]
    intro x hx
    have := List.any_eq_false.mp h x hx
    simpa using this
  rw [if_neg (by omega)]
  have h0 : ([m].findIdx fun x => extractPattern x = extractPattern m) = 0 := by
    rw [List.findIdx_cons]
    simp
  omega

/-- One `clusterStep` preserves the cluster-map invariant. -/
theorem clusterStep_inv {pre : List String} {acc : List PatternBucket} (m : String)
    (h : ClustersInv pre acc) : ClustersInv (pre ++ [m]) (clusterStep acc m) := by
  obtain ⟨hfind, hcount, hany, horder, hlt⟩ := h
  unfold clusterStep
  by_cases hpres : acc.any (fun c => c.pattern = extractPattern m) = true
  · rw [if_pos hpres]
    refine ⟨?_, ?_, ?_, ?_, ?_⟩
    · intro c' hc'
      obtain ⟨c, hc, rfl⟩ := List.mem_map.mp hc'
      rw [clusterBump_pattern, clusterBump_sample, List.find?_append, hfind c hc]
      rfl
    · intro c' hc'
      obtain ⟨c, hc, rfl⟩ := List.mem_map.mp hc'
      rw [clusterBump_pattern, List.filter_append, List.length_append]
      have hcc := hcount c hc
      by_cases hcp : c.pattern = extractPattern m
      · rw [if_pos hcp]
        have hdec : decide (extractPattern m = c.pattern) = true := decide_eq_true hcp.symm
        have hm : ([m].filter (fun x => extractPattern x = c.pattern)).length = 1 := by
          simp [List.filter_cons, hdec]
        rw [hm]
        dsimp only
        omega
      · rw [if_neg hcp]
        have hdec : decide (extractPattern m = c.pattern) = false := by
          apply decide_eq_false
          intro hmm
          exact hcp hmm.symm
        have hm : ([m].filter (fun x => extractPattern x = c.pattern)).length = 0 := by
          simp [List.filter_cons, hdec]
        rw [hm]
        omega
    · intro q
      rw [any_pattern_map, List.any_append, hany]
      by_cases hq : extractPattern m = q
      · subst hq
        have h1 : pre.any (fun x => extractPattern x = extractPattern m) = true := by
          rw [← hany]
          exact hpres
        have h2 : ([m].any fun x => extractPattern x = extractPattern m) = true := by
          simp
        rw [h1, h2]
        rfl
      · have h2 : ([m].any fun x => extractPattern x = q) = false := by
          simp only [List.any_cons, List.any_nil, Bool.or_false]
          exact decide_eq_false hq
        rw [h2, Bool.or_false]
    · rw [List.pairwise_map]
      refine horder.imp_of_mem ?_
      intro a b ha hb hab
      rw [clusterBump_pattern, clusterBump_pattern,
        firstSeenIdx_append_of_found pre m _ (hlt a ha),
        firstSeenIdx_append_of_found pre m _ (hlt b hb)]
      exact hab
    · intro c' hc'
      obtain ⟨c, hc, rfl⟩ := List.mem_map.mp hc'
      rw [clusterBump_pattern, firstSeenIdx_append_of_found pre m _ (hlt c hc),
        List.length_append]
      have := hlt c hc
      omega
  · rw [if_neg hpres]
    have hnotin : ∀ c ∈ acc, c.pattern ≠ extractPattern m := by
      intro c hc hceq
      exact hpres (List.any_eq_true.mpr ⟨c, hc, by simp [hceq]⟩)
    have hprefalse : pre.any (fun x => extractPattern x = extractPattern m) = false := by
      rw [← hany]
      exact Bool.eq_false_iff.mpr hpres
    have hprenone : pre.find? (fun x => extractPattern x = extractPattern m) = none := by
      rw [List.find?_eq_none]
      intro x hx hxp
      have : pre.any (fun x => extractPattern x = extractPattern m) = true :=
        List.any_eq_true.mpr ⟨x, hx, hxp⟩
      rw [hprefalse] at this
      exact Bool.false_ne_true this
    refine ⟨?_, ?_, ?_, ?_, ?_⟩
    · intro c' hc'
      rcases List.mem_append.mp hc' with hc | hc
      · rw [List.find?_append, hfind c' hc]
        rfl
      · have hc1 : c' = ⟨extractPattern m, 1, m⟩ := by simpa using hc
        subst hc1
        dsimp only
        rw [List.find?_append, hprenone, Option.none_or]
        rw [List.find?_cons]
        simp
    · intro c' hc'
      rcases List.mem_append.mp hc' with hc | hc
      · rw [List.filter_append, List.length_append]
        have hdec : decide (extractPattern m = c'.pattern) = false := by
          apply decide_eq_false
          intro hmm
          exact hnotin c' hc hmm.symm
        have hm : ([m].filter (fun x => extractPattern x = c'.pattern)).length = 0 := by
          simp [List.filter_cons, hdec]
        rw [hm]
        have := hcount c' hc
        omega
      · have hc1 : c' = ⟨extractPattern m, 1, m⟩ := by simpa using hc
        subst hc1
        dsimp only
        rw [List.filter_append, List.length_append]
        have hpre0 : (pre.filter (fun x => extractPattern x = extractPattern m)).length = 0 := by
          rw [List.length_eq_zero, List.filter_eq_nil_iff]
          intro x hx hxp
          have : pre.any (fun x => extractPattern x = extractPattern m) = true :=
            List.any_eq_true.mpr ⟨x, hx, by simpa using hxp⟩
          rw [hprefalse] at this
          exact Bool.false_ne_true this
        have hm : ([m].filter (fun x => extractPattern x = extractPattern m)).length = 1 := by
          simp [List.filter_cons]
        rw [hpre0, hm]
    · intro q
      rw [List.any_append, List.any_append, hany]
      have hnew : (([⟨extractPattern m, 1, m⟩] : List PatternBucket).any
          fun c => c.pattern = q) = ([m].any fun x => extractPattern x = q) := by
        simp
      rw [hnew]
    · rw [List.pairwise_append]
      refine ⟨?_, ?_, ?_⟩
      · refine horder.imp_of_mem ?_
        intro a b ha hb hab
        rw [firstSeenIdx_append_of_found pre m _ (hlt a ha),
          firstSeenIdx_append_of_found pre m _ (hlt b hb)]
        exact hab
      · simp
      · intro a ha b hb
        have hb1 : b = ⟨extractPattern m, 1, m⟩ := by simpa using hb
        subst hb1
        dsimp only
        rw [firstSeenIdx_append_of_found pre m _ (hlt a ha),
          firstSeenIdx_append_of_fresh pre m hprefalse]
        exact hlt a ha
    · intro c' hc'
      rcases List.mem_append.mp hc' with hc | hc
      · rw [firstSeenIdx_append_of_found pre m _ (hlt c' hc), List.length_append]
        have := hlt c' hc
        omega
      · have hc1 : c' = ⟨extractPattern m, 1, m⟩ := by simpa using hc
        subst hc1
        dsimp only
        rw [firstSeenIdx_append_of_fresh pre m hprefalse, List.length_append]
        simp

/-- The invariant carried through the whole message fold. -/
theorem clusterFold_inv (ms : List String) :
    ∀ (pre : List String) (acc : List PatternBucket), ClustersInv pre acc →
      ClustersInv (pre ++ ms) (ms.foldl clusterStep acc) := by
  induction ms with
  | nil =>
    intro pre acc h
    simpa using h
  | cons m ms ih =>
    intro pre acc h
    have h2 := ih (pre ++ [m]) (clusterStep acc m) (clusterStep_inv m h)
    simpa [List.append_assoc] using h2

theorem clustersInv_nil : ClustersInv [] [] :=
  ⟨by simp, by simp, fun _ => rfl, List.Pairwise.nil, by simp⟩

theorem patternClusters_inv (ms : List String) : ClustersInv ms (patternClusters ms) := by
  have h := clusterFold_inv ms [] [] clustersInv_nil
  simpa [patternClusters] using h

/-- Distinct first-seen indices force distinct cluster records. -/
theorem patternClusters_nodup (ms : List String) : (patternClusters ms).Nodup := by
  have h := (patternClusters_inv ms).2.2.2.1
  refine h.imp ?_
  intro a b hab heq
  rw [heq] at hab
  exact lt_irrefl _ hab

theorem countGE_trans : ∀ (a b c : PatternBucket),
    countGE a b = true → countGE b c = true → countGE a c = true := by
  intro a b c hab hbc
  simp only [countGE, decide_eq_true_eq] at *
  omega

theorem countGE_total : ∀ (a b : PatternBucket), (countGE a b || countGE b a) = true := by
  intro a b
  simp only [countGE, Bool.or_eq_true, decide_eq_true_eq]
  omega

/-- Any two distinct members of a list occur as a pair sublist in one of
the two orders. -/
theorem pair_sublist_or {α : Type} (a b : α) :
    ∀ (l : List α), a ∈ l → b ∈ l → a ≠ b →
      [a, b].Sublist l ∨ [b, a].Sublist l := by
  intro l
  induction l with
  | nil =>
    intro ha
    exact absurd ha (List.not_mem_nil a)
  | cons x xs ih =>
    intro ha hb hne
    rcases List.mem_cons.mp ha with rfl | ha'
    · rcases List.mem_cons.mp hb with hbx | hb'
      · exact absurd hbx.symm hne
      · exact Or.inl ((List.singleton_sublist.mpr hb').cons₂ a)
    · rcases List.mem_cons.mp hb with rfl | hb'
      · exact Or.inr ((List.singleton_sublist.mpr ha').cons₂ b)
      · rcases ih ha' hb' hne with h | h
        · exact Or.inl (h.cons x)
        · exact Or.inr (h.cons x)

/-- In a duplicate-free list a pair cannot occur as a sublist in both
orders. -/
theorem pair_sublist_antisymm {α : Type} :
    ∀ (l : List α), l.Nodup → ∀ a b, [a, b].Sublist l → [b, a].Sublist l → a = b := by
  intro l
  induction l with
  | nil =>
    intro _ a b h
    exact absurd (List.sublist_nil.mp h) (by simp)
  | cons x xs ih =>
    intro hnd a b hab hba
    have hx : x ∉ xs := (List.nodup_cons.mp hnd).1
    rcases List.sublist_cons_iff.mp hab with hab' | ⟨r, hr, hrs⟩
    · rcases List.sublist_cons_iff.mp hba with hba' | ⟨r2, hr2, hrs2⟩
      · exact ih (List.nodup_cons.mp hnd).2 a b hab' hba'
      · injection hr2 with hbx hr2tail
        have hbmem : b ∈ xs := hab'.subset (by simp)
        rw [hbx] at hbmem
        exact absurd hbmem hx
    · rcases List.sublist_cons_iff.mp hba with hba' | ⟨r2, hr2, hrs2⟩
      · injection hr with hax hrtail
        have hamem : a ∈ xs := hba'.subset (by simp)
        rw [hax] at hamem
        exact absurd hamem hx
      · injection hr with hax _
        injection hr2 with hbx _
        rw [hax, hbx]

/-- Claim C7 (amended): `getLogPatterns` returns the clusters sorted by
descending count with ties in first-seen order, each cluster's sample
being the first message of its masked key and its count the key's
multiplicity — but the returned list is always capped at 50
(`slice(0, 50)`); the caller's `limit` (default 500) is only the fetch
page size, not the result cap. -/
theorem getLogPatterns_clusters_spec (messages : List String) :
    (getLogPatternsOf messages).length = min 50 (patternClusters messages).length ∧
    (getLogPatternsOf messages).Pairwise (fun a b => b.count ≤ a.count) ∧
    (∀ a b : PatternBucket, [a, b].Sublist (getLogPatternsOf messages) → a.count = b.count →
      firstSeenIdx messages a.pattern < firstSeenIdx messages b.pattern) ∧
    (∀ c ∈ getLogPatternsOf messages,
      messages.find? (fun x => extractPattern x = c.pattern) = some c.sample) ∧
    (∀ c ∈ getLogPatternsOf messages,
      c.count = (messages.filter (fun x => extractPattern x = c.pattern)).length) := by
  obtain ⟨hfind, hcount, hany, horder, hlt⟩ := patternClusters_inv messages
  have hnodup : (patternClusters messages).Nodup := patternClusters_nodup messages
  have hsortnd : ((patternClusters messages).mergeSort countGE).Nodup :=
    ((List.mergeSort_perm _ _).nodup_iff).mpr hnodup
  have hsorted := @List.sorted_mergeSort _ countGE
    countGE_trans countGE_total (patternClusters messages)
  have htake : (getLogPatternsOf messages).Sublist
      ((patternClusters messages).mergeSort countGE) := by
    unfold getLogPatternsOf
    exact List.take_sublist _ _
  refine ⟨?_, ?_, ?_, ?_, ?_⟩
  · unfold getLogPatternsOf
    rw [List.length_take, List.length_mergeSort]
  · refine (hsorted.sublist htake).imp ?_
    intro a b hab
    simpa [countGE] using hab
  · intro a b hsub hcnt
    have hsubms : [a, b].Sublist ((patternClusters messages).mergeSort countGE) :=
      hsub.trans htake
    have hne : a ≠ b := List.pairwise_iff_forall_sublist.mp hsortnd hsubms
    have hamem : a ∈ patternClusters messages := by
      have h := hsubms.subset (show a ∈ [a, b] by simp)
      simpa using h
    have hbmem : b ∈ patternClusters messages := by
      have h := hsubms.subset (show b ∈ [a, b] by simp)
      simpa using h
    rcases pair_sublist_or a b (patternClusters messages) hamem hbmem hne with h | h
    · exact List.pairwise_iff_forall_sublist.mp horder h
    · exfalso
      have hba : [b, a].Sublist ((patternClusters messages).mergeSort countGE) :=
        List.pair_sublist_mergeSort countGE_trans countGE_total
          (by simp [countGE, hcnt]) h
      exact hne (pair_sublist_antisymm _ hsortnd a b hsubms hba)
  · intro c hc
    have hcm : c ∈ patternClusters messages := by
      have h := htake.subset hc
      simpa using h
    exact hfind c hcm
  · intro c hc
    have hcm : c ∈ patternClusters messages := by
      have h := htake.subset hc
      simpa using h
    exact hcount c hcm

/-- Claim C7 (witness): two tied single-count clusters come out in
first-seen order with first-seen samples. -/
theorem getLogPatterns_clusters_spec_witness :
    firstSeenIdx ["x 1", "y 2"] "x <N>" < firstSeenIdx ["x 1", "y 2"] "y <N>" ∧
    (["x 1", "y 2"].find? fun m => extractPattern m = "x <N>") = some "x 1" := by
  have hc : patternClusters ["x 1", "y 2"] =
      [⟨"x <N>", 1, "x 1"⟩, ⟨"y <N>", 1, "y 2"⟩] := by decide
  have hs : List.Pairwise (fun a b => countGE a b = true) (patternClusters ["x 1", "y 2"]) := by
    rw [hc]
    decide
  have h1 : (patternClusters ["x 1", "y 2"]).mergeSort countGE =
      patternClusters ["x 1", "y 2"] :=
    List.mergeSort_of_sorted hs
  have hout : getLogPatternsOf ["x 1", "y 2"] =
      [⟨"x <N>", 1, "x 1"⟩, ⟨"y <N>", 1, "y 2"⟩] := by
    unfold getLogPatternsOf
    rw [h1, hc]
    decide
  have h := getLogPatterns_clusters_spec ["x 1", "y 2"]
  refine ⟨?_, ?_⟩
  · refine h.2.2.1 ⟨"x <N>", 1, "x 1"⟩ ⟨"y <N>", 1, "y 2"⟩ ?_ rfl
    rw [hout]
  · refine h.2.2.2.1 ⟨"x <N>", 1, "x 1"⟩ ?_
    rw [hout]
    simp

set_option maxRecDepth 100000 in
set_option maxHeartbeats 1000000 in
/-- Claim C7 (counterexample): with 51 messages of 51 distinct masked
keys and a caller limit of 100 (a page large enough to hold them all),
the code returns 50 clusters while the claimed behavior — capped to the
caller's result limit — would return all 51. -/
theorem getLogPatterns_limit_counterexample :
    msgs51.length ≤ 100 ∧
    getLogPatternsOf msgs51 ≠ specLogPatternsOf 100 msgs51 := by
  have hs : List.Pairwise (fun a b => countGE a b = true) (patternClusters msgs51) := by
    decide
  have h1 : (patternClusters msgs51).mergeSort countGE = patternClusters msgs51 :=
    List.mergeSort_of_sorted hs
  have hlen : (patternClusters msgs51).length = 51 := by decide
  constructor
  · decide
  · intro heq
    unfold getLogPatternsOf specLogPatternsOf at heq
    rw [h1] at heq
    have hlen2 := congrArg List.length heq
    rw [List.length_take, List.length_take, hlen] at hlen2
    omega

/-! ## Claim C4: trace-tree construction -/

/-- A lookup that hits nothing in the remaining spans falls through to
the accumulated map. -/
theorem spanMapGo_of_absent (id : String) :
    ∀ (l : List SpanRec) (j : Nat) (f : String → Option Nat),
      (∀ s ∈ l, s.spanId ≠ id) → spanMapGo j l f id = f id := by
  intro l
  induction l with
  | nil => intro j f _; rfl
  | cons s rest ih =>
    intro j f hab
    unfold spanMapGo
    rw [ih (j + 1) _ (fun t ht => hab t (List.mem_cons_of_mem s ht))]
    rw [if_neg ?_]
    intro heq
    exact hab s (List.mem_cons_self s rest) heq.symm

/-- A successful lookup names either the fallback or a matching index. -/
theorem spanMapGo_some (id : String) :
    ∀ (l : List SpanRec) (j : Nat) (f : String → Option Nat) (t : Nat),
      spanMapGo j l f id = some t →
      f id = some t ∨ ∃ i, i < l.length ∧ t = j + i ∧ (l.getD i dummySpan).spanId = id := by
  intro l
  induction l with
  | nil =>
    intro j f t h
    exact Or.inl h
  | cons s rest ih =>
    intro j f t h
    unfold spanMapGo at h
    rcases ih (j + 1) _ t h with hf | ⟨i, hi, ht, hid⟩
    · by_cases hs : id = s.spanId
      · rw [if_pos hs] at hf
        right
        refine ⟨0, by simp, ?_, ?_⟩
        · injection hf with hf2
          omega
        · simpa using hs.symm
      · rw [if_neg hs] at hf
        exact Or.inl hf
    · right
      refine ⟨i + 1, ?_, by omega, by simpa using hid⟩
      simp only [List.length_cons]
      omega

/-- With no later occurrence of the id, the map finds the index of an
occurrence itself (JS last-write-wins). -/
theorem spanMapGo_self (id : String) :
    ∀ (l : List SpanRec) (j : Nat) (f : String → Option Nat) (i : Nat),
      i < l.length → (l.getD i dummySpan).spanId = id →
      (∀ i2, i < i2 → i2 < l.length → (l.getD i2 dummySpan).spanId ≠ id) →
      spanMapGo j l f id = some (j + i) := by
  intro l
  induction l with
  | nil =>
    intro j f i hi
    exact absurd hi (by simp)
  | cons s rest ih =>
    intro j f i hi hid hafter
    unfold spanMapGo
    cases i with
    | zero =>
      have hs : s.spanId = id := by simpa using hid
      have hrest : ∀ t ∈ rest, t.spanId ≠ id := by
        intro t ht heq
        obtain ⟨i2, hi2, rfl⟩ := List.mem_iff_getElem.mp ht
        refine hafter (i2 + 1) (by omega) (by simp; omega) ?_
        rw [List.getD_cons_succ, List.getD_eq_getElem rest dummySpan hi2]
        exact heq
      rw [spanMapGo_of_absent id rest (j + 1) _ hrest]
      show (if id = s.spanId then some j else f id) = some (j + 0)
      rw [if_pos hs.symm]
      norm_num
    | succ i2 =>
      have hid2 : (rest.getD i2 dummySpan).spanId = id := by simpa using hid
      have hafter2 : ∀ t2, i2 < t2 → t2 < rest.length →
          (rest.getD t2 dummySpan).spanId ≠ id := by
        intro t2 h1 h2
        have h3 := hafter (t2 + 1) (by omega) (by simp; omega)
        simpa using h3
      have h := ih (j + 1) (fun id2 => if id2 = s.spanId then some j else f id2) i2
        (by simpa using hi) hid2 hafter2
      rw [h]
      congr 1
      omega

/-- With duplicate-free span ids the map sends every span's id to its own
index. -/
theorem spanMap_self (spans : List SpanRec)
    (hnd : (spans.map (fun s => s.spanId)).Nodup)
    (i : Nat) (hi : i < spans.length) :
    spanMapOf spans ((spans.getD i dummySpan).spanId) = some i := by
  unfold spanMapOf
  have h := spanMapGo_self ((spans.getD i dummySpan).spanId) spans 0 (fun _ => none) i hi rfl ?_
  · simpa using h
  · intro i2 h1 h2 heq
    have hlen1 : i < (spans.map (fun s => s.spanId)).length := by simpa using hi
    have hlen2 : i2 < (spans.map (fun s => s.spanId)).length := by simpa using h2
    have heq2 : (spans.map (fun s => s.spanId))[i2] = (spans.map (fun s => s.spanId))[i] := by
      rw [List.getElem_map, List.getElem_map,
        ← List.getD_eq_getElem spans dummySpan (by omega : i < spans.length),
        ← List.getD_eq_getElem spans dummySpan h2]
      exact heq
    have := (hnd.getElem_inj_iff).mp heq2
    omega

/-- A successful map lookup points at an in-range index carrying the id. -/
theorem spanMap_some (spans : List SpanRec) (id : String) (t : Nat)
    (h : spanMapOf spans id = some t) :
    t < spans.length ∧ (spans.getD t dummySpan).spanId = id := by
  rcases spanMapGo_some id spans 0 _ t h with hf | ⟨i, hi, ht, hid⟩
  · exact absurd hf (by simp)
  · refine ⟨by omega, ?_⟩
    rw [show t = i by omega]
    exact hid

/-- An id carried by no span is not in the map. -/
theorem spanMap_none_of_absent (spans : List SpanRec) (id : String)
    (h : ∀ s ∈ spans, s.spanId ≠ id) : spanMapOf spans id = none :=
  spanMapGo_of_absent id spans 0 _ h

/-- `linkStep` when the parent id is absent. -/
theorem linkStep_absent (m : String → Option Nat) (j : Nat) (s : SpanRec) (st : TreeLinks)
    (h : s.parentId = none) :
    linkStep m j s st = { st with roots := st.roots ++ [(m s.spanId).getD j] } := by
  unfold linkStep
  rw [h]

/-- `linkStep` when the parent id is present but not in the map. -/
theorem linkStep_missing (m : String → Option Nat) (j : Nat) (s : SpanRec) (st : TreeLinks)
    (pid : String) (hp : s.parentId = some pid) (hm : m pid = none) :
    linkStep m j s st = { st with roots := st.roots ++ [(m s.spanId).getD j] } := by
  unfold linkStep
  rw [hp]
  dsimp only
  rw [hm]

/-- `linkStep` when the parent is found. -/
theorem linkStep_found (m : String → Option Nat) (j : Nat) (s : SpanRec) (st : TreeLinks)
    (pid : String) (p0 : Nat) (hp : s.parentId = some pid) (hm : m pid = some p0) :
    linkStep m j s st =
      { st with children := fun q =>
          if q = p0 then st.children q ++ [(m s.spanId).getD j] else st.children q } := by
  unfold linkStep
  rw [hp]
  dsimp only
  rw [hm]

/-- Closed form of the parent-child loop: roots and child lists are the
in-order index filters of the per-index parent lookup `pidx`, given that
each span's own lookup is its index. -/
theorem buildLinksGo_closed (m : String → Option Nat) (pidx : Nat → Option Nat) :
    ∀ (l : List SpanRec) (j : Nat) (st : TreeLinks),
      (∀ i, i < l.length →
        ((m (l.getD i dummySpan).spanId).getD (j + i) = j + i) ∧
        ((match (l.getD i dummySpan).parentId with
          | some pid => m pid
          | none => none) = pidx (j + i))) →
      ((buildLinksGo m j l st).roots
          = st.roots ++ (List.range' j l.length).filter (fun t => pidx t = none)) ∧
      (∀ p, (buildLinksGo m j l st).children p
          = st.children p ++ (List.range' j l.length).filter (fun t => pidx t = some p)) := by
  intro l
  induction l with
  | nil =>
    intro j st _
    constructor
    · simp [buildLinksGo]
    · intro p
      simp [buildLinksGo]
  | cons s rest ih =>
    intro j st hstep
    obtain ⟨hrep, hpm⟩ := hstep 0 (by simp)
    simp only [List.getD_cons_zero, Nat.add_zero] at hrep hpm
    have hstep2 : ∀ i, i < rest.length →
        ((m (rest.getD i dummySpan).spanId).getD (j + 1 + i) = j + 1 + i) ∧
        ((match (rest.getD i dummySpan).parentId with
          | some pid => m pid
          | none => none) = pidx (j + 1 + i)) := by
      intro i hi
      have h := hstep (i + 1) (by simp; omega)
      simp only [List.getD_cons_succ] at h
      rw [show j + (i + 1) = j + 1 + i by omega] at h
      exact h
    have hunf : buildLinksGo m j (s :: rest) st
        = buildLinksGo m (j + 1) rest (linkStep m j s st) := rfl
    cases hpar : s.parentId with
    | none =>
      have hpj : pidx j = none := by
        rw [← hpm, hpar]
      have hst : linkStep m j s st = { st with roots := st.roots ++ [j] } := by
        rw [linkStep_absent m j s st hpar, hrep]
      have hih := ih (j + 1) { st with roots := st.roots ++ [j] } hstep2
      rw [hunf, hst]
      constructor
      · rw [hih.1]
        simp only [List.length_cons]
        rw [List.range'_succ, List.filter_cons]
        simp [hpj]
      · intro p
        rw [hih.2 p]
        simp only [List.length_cons]
        rw [List.range'_succ, List.filter_cons]
        simp [hpj]
    | some pid =>
      cases hm : m pid with
      | none =>
        have hpj : pidx j = none := by
          rw [← hpm, hpar]
          exact hm
        have hst : linkStep m j s st = { st with roots := st.roots ++ [j] } := by
          rw [linkStep_missing m j s st pid hpar hm, hrep]
        have hih := ih (j + 1) { st with roots := st.roots ++ [j] } hstep2
        rw [hunf, hst]
        constructor
        · rw [hih.1]
          simp only [List.length_cons]
          rw [List.range'_succ, List.filter_cons]
          simp [hpj]
        · intro p
          rw [hih.2 p]
          simp only [List.length_cons]
          rw [List.range'_succ, List.filter_cons]
          simp [hpj]
      | some p0 =>
        have hpj : pidx j = some p0 := by
          rw [← hpm, hpar]
          exact hm
        have hst : linkStep m j s st =
            { st with children := fun q =>
                if q = p0 then st.children q ++ [j] else st.children q } := by
          rw [linkStep_found m j s st pid p0 hpar hm, hrep]
        have hih := ih (j + 1)
          { st with children := fun q =>
              if q = p0 then st.children q ++ [j] else st.children q } hstep2
        rw [hunf, hst]
        constructor
        · rw [hih.1]
          simp only [List.length_cons]
          rw [List.range'_succ, List.filter_cons]
          simp [hpj]
        · intro p
          rw [hih.2 p]
          simp only [List.length_cons]
          rw [List.range'_succ, List.filter_cons]
          by_cases hpp : p = p0
          · subst hpp
            simp [hpj]
          · have hne : ¬ (pidx j = some p) := by
              rw [hpj]
              intro h
              injection h with h2
              exact hpp h2.symm
            simp [if_neg hpp, hne]

/-- Instantiated closed form for `buildLinks` under duplicate-free ids. -/
theorem buildLinks_closed (spans : List SpanRec)
    (hnd : (spans.map (fun s => s.spanId)).Nodup) :
    ((buildLinks spans).roots
        = (List.range' 0 spans.length).filter (fun t => parentIdx spans t = none)) ∧
    (∀ p, (buildLinks spans).children p
        = (List.range' 0 spans.length).filter (fun t => parentIdx spans t = some p)) := by
  unfold buildLinks
  have h := buildLinksGo_closed (spanMapOf spans) (parentIdx spans) spans 0
    ⟨fun _ => [], []⟩ ?_
  · constructor
    · rw [h.1]
      rfl
    · intro p
      rw [h.2 p]
      rfl
  · intro i hi
    constructor
    · rw [Nat.zero_add, spanMap_self spans hnd i hi]
      rfl
    · rw [Nat.zero_add]
      rfl

theorem mem_range_zero (t n : Nat) : t ∈ List.range' 0 n ↔ t < n := by
  rw [List.mem_range']
  constructor
  · rintro ⟨i, hi, rfl⟩
    omega
  · intro h
    exact ⟨t, h, by omega⟩

/-- Child-list membership under duplicate-free ids. -/
theorem mem_children_iff (spans : List SpanRec)
    (hnd : (spans.map (fun s => s.spanId)).Nodup) (p j : Nat) :
    j ∈ (buildLinks spans).children p ↔ j < spans.length ∧ parentIdx spans j = some p := by
  rw [(buildLinks_closed spans hnd).2 p, List.mem_filter, mem_range_zero]
  simp

/-- Roots membership under duplicate-free ids. -/
theorem mem_roots_iff (spans : List SpanRec)
    (hnd : (spans.map (fun s => s.spanId)).Nodup) (r : Nat) :
    r ∈ (buildLinks spans).roots ↔ r < spans.length ∧ parentIdx spans r = none := by
  rw [(buildLinks_closed spans hnd).1, List.mem_filter, mem_range_zero]
  simp

/-- Reachability is reachability at some level. -/
theorem childReach_iff (C : Nat → List Nat) (x v : Nat) :
    ChildReach C x v ↔ ∃ k, ChildReachD C x v k := by
  constructor
  · intro h
    induction h with
    | refl => exact ⟨0, ChildReachD.refl x⟩
    | step _ hmem ih =>
      obtain ⟨k, hk⟩ := ih
      exact ⟨k + 1, ChildReachD.step hk hmem⟩
  · rintro ⟨k, hk⟩
    induction hk with
    | refl => exact ChildReach.refl x
    | step _ hmem ih => exact ChildReach.step ih hmem

theorem childReachD_zero (C : Nat → List Nat) {x v : Nat}
    (h : ChildReachD C x v 0) : v = x := by
  cases h
  rfl

theorem childReachD_trans (C : Nat → List Nat) :
    ∀ {x y a}, ChildReachD C x y a → ∀ {z b}, ChildReachD C y z b →
      ChildReachD C x z (a + b) := by
  intro x y a hxy z b hyz
  induction hyz with
  | refl => exact hxy
  | step _ hmem ih => exact ChildReachD.step ih hmem

/-- Peel the first edge off a nonempty reachability chain. -/
theorem childReachD_front (C : Nat → List Nat) :
    ∀ {x v k}, ChildReachD C x v (k + 1) → ∃ c ∈ C x, ChildReachD C c v k := by
  intro x v k h
  induction k generalizing v with
  | zero =>
    cases h with
    | step h0 hmem =>
      have := childReachD_zero C h0
      subst this
      exact ⟨v, hmem, ChildReachD.refl v⟩
  | succ k2 ih =>
    cases h with
    | step h0 hmem =>
      obtain ⟨c, hc, hrest⟩ := ih h0
      exact ⟨c, hc, ChildReachD.step hrest hmem⟩

/-- With functional parents, a node is reached from a parentless top by a
unique top and a unique level. -/
theorem childReachD_root_unique (C : Nat → List Nat)
    (hpf : ∀ j p p2, j ∈ C p → j ∈ C p2 → p = p2) :
    ∀ (k : Nat) (r v : Nat), (∀ p, r ∉ C p) → ChildReachD C r v k →
      ∀ (k2 : Nat) (r2 : Nat), (∀ p, r2 ∉ C p) → ChildReachD C r2 v k2 →
        r = r2 ∧ k = k2 := by
  intro k
  induction k with
  | zero =>
    intro r v hr h0 k2 r2 hr2 h2
    have hv := childReachD_zero C h0
    subst hv
    cases k2 with
    | zero =>
      have := childReachD_zero C h2
      subst this
      exact ⟨rfl, rfl⟩
    | succ k3 =>
      cases h2 with
      | step _ hmem => exact absurd hmem (hr _)
  | succ k ihk =>
    intro r v hr h k2 r2 hr2 h2
    cases h with
    | step hy hmem =>
      cases k2 with
      | zero =>
        have := childReachD_zero C h2
        subst this
        exact absurd hmem (hr2 _)
      | succ k3 =>
        cases h2 with
        | step hy2 hmem2 =>
          have hyy := hpf v _ _ hmem hmem2
          subst hyy
          have := ihk r _ hr hy k3 r2 hr2 hy2
          exact ⟨this.1, by omega⟩

/-- A prefix of a reachability chain reaches some intermediate node. -/
theorem childReachD_prefix (C : Nat → List Nat) :
    ∀ {k x v}, ChildReachD C x v k → ∀ i, i ≤ k → ∃ w, ChildReachD C x w i := by
  intro k x v h
  induction h with
  | refl =>
    intro i hi
    rw [Nat.le_zero.mp hi]
    exact ⟨x, ChildReachD.refl x⟩
  | step h0 hmem ih =>
    intro i hi
    rename_i y z d
    by_cases hle : i ≤ d
    · exact ih i hle
    · have : i = d + 1 := by omega
      subst this
      exact ⟨z, ChildReachD.step h0 hmem⟩

theorem childReach_of_mem (C : Nat → List Nat) {x c : Nat} (h : c ∈ C x) :
    ChildReach C x c :=
  ChildReach.step (ChildReach.refl x) h

/-- `setDepth` only writes to nodes reachable from the node it starts at. -/
theorem setDepthGo_untouched (C : Nat → List Nat) :
    ∀ (fuel x : Nat) (m : Nat → Nat) (d v : Nat), ¬ ChildReach C x v →
      setDepthGo C fuel m x d v = m v := by
  intro fuel
  induction fuel with
  | zero => intro x m d v _; rfl
  | succ f ih =>
    intro x m d v h
    have hx : v ≠ x := fun he => h (by rw [he]; exact ChildReach.refl x)
    have hcs : ∀ c ∈ C x, ¬ ChildReach C c v := by
      intro c hc hr
      obtain ⟨k, hk⟩ := (childReach_iff C c v).mp hr
      have h1 : ChildReachD C x c 1 := ChildReachD.step (ChildReachD.refl x) hc
      exact h ((childReach_iff C x v).mpr ⟨1 + k, childReachD_trans C h1 hk⟩)
    show ((C x).foldl (fun mm c => setDepthGo C f mm c (d + 1))
        (fun q => if q = x then d else m q)) v = m v
    have haux : ∀ (cs : List Nat), (∀ c ∈ cs, ¬ ChildReach C c v) →
        ∀ m0 : Nat → Nat,
          (cs.foldl (fun mm c => setDepthGo C f mm c (d + 1)) m0) v = m0 v := by
      intro cs
      induction cs with
      | nil => intro _ m0; rfl
      | cons c cs ihc =>
        intro hcs2 m0
        rw [List.foldl_cons]
        rw [ihc (fun c2 h2 => hcs2 c2 (List.mem_cons_of_mem c h2))]
        exact ih c m0 (d + 1) v (hcs2 c (List.mem_cons_self c cs))
    rw [haux (C x) hcs]
    exact if_neg hx

/-- On inputs where levels from the start node are unique and below the
fuel, `setDepth` assigns to every node reachable at level `k` the depth
`d + k`. -/
theorem setDepthGo_correct (C : Nat → List Nat) :
    ∀ (fuel x d v k : Nat) (m : Nat → Nat),
      ChildReachD C x v k →
      (∀ w k1 k2, ChildReachD C x w k1 → ChildReachD C x w k2 → k1 = k2) →
      (∀ w k2, ChildReachD C x w k2 → k2 < fuel) →
      setDepthGo C fuel m x d v = d + k := by
  intro fuel
  induction fuel with
  | zero =>
    intro x d v k m hreach _ hfuel
    have := hfuel v k hreach
    omega
  | succ f ih =>
    intro x d v k m hreach huniq hfuel
    show ((C x).foldl (fun mm c => setDepthGo C f mm c (d + 1))
        (fun q => if q = x then d else m q)) v = d + k
    by_cases hvx : v = x
    · subst hvx
      have hk0 : k = 0 := huniq v k 0 hreach (ChildReachD.refl v)
      subst hk0
      have hcs : ∀ c ∈ C v, ¬ ChildReach C c v := by
        intro c hc hr
        obtain ⟨k1, hk1⟩ := (childReach_iff C c v).mp hr
        have h1 : ChildReachD C v c 1 := ChildReachD.step (ChildReachD.refl v) hc
        have := huniq v (1 + k1) 0 (childReachD_trans C h1 hk1) (ChildReachD.refl v)
        omega
      have haux : ∀ (cs : List Nat), (∀ c ∈ cs, ¬ ChildReach C c v) →
          ∀ m0 : Nat → Nat,
            (cs.foldl (fun mm c => setDepthGo C f mm c (d + 1)) m0) v = m0 v := by
        intro cs
        induction cs with
        | nil => intro _ m0; rfl
        | cons c cs ihc =>
          intro hcs2 m0
          rw [List.foldl_cons]
          rw [ihc (fun c2 h2 => hcs2 c2 (List.mem_cons_of_mem c h2))]
          exact setDepthGo_untouched C f c m0 (d + 1) v (hcs2 c (List.mem_cons_self c cs))
      rw [haux (C v) hcs]
      exact if_pos rfl
    · have hkpos : k ≠ 0 := by
        intro h0
        subst h0
        exact hvx (childReachD_zero C hreach)
      obtain ⟨k0, rfl⟩ : ∃ k0, k = k0 + 1 := ⟨k - 1, by omega⟩
      obtain ⟨c0, hc0, hreach0⟩ := childReachD_front C hreach
      have hfold : ∀ (cs : List Nat), (∀ c ∈ cs, c ∈ C x) →
          ∀ m0 : Nat → Nat,
            (m0 v = d + (k0 + 1) ∨ ∃ c ∈ cs, ∃ kk, ChildReachD C c v kk) →
            (cs.foldl (fun mm c => setDepthGo C f mm c (d + 1)) m0) v = d + (k0 + 1) := by
        intro cs
        induction cs with
        | nil =>
          intro _ m0 hdisj
          rcases hdisj with hl | ⟨c, hc, _⟩
          · exact hl
          · exact absurd hc (List.not_mem_nil c)
        | cons c cs ihc =>
          intro hsub m0 hdisj
          rw [List.foldl_cons]
          by_cases hrc : ChildReach C c v
          · apply ihc (fun c2 h2 => hsub c2 (List.mem_cons_of_mem c h2))
            left
            obtain ⟨kk, hkk⟩ := (childReach_iff C c v).mp hrc
            have hcx : c ∈ C x := hsub c (List.mem_cons_self c cs)
            have hxc : ChildReachD C x c 1 := ChildReachD.step (ChildReachD.refl x) hcx
            have hkeq : 1 + kk = k0 + 1 :=
              huniq v (1 + kk) (k0 + 1) (childReachD_trans C hxc hkk) hreach
            have huniqc : ∀ w k1 k2, ChildReachD C c w k1 → ChildReachD C c w k2 →
                k1 = k2 := by
              intro w k1 k2 h1 h2
              have := huniq w (1 + k1) (1 + k2)
                (childReachD_trans C hxc h1) (childReachD_trans C hxc h2)
              omega
            have hfuelc : ∀ w k2, ChildReachD C c w k2 → k2 < f := by
              intro w k2 h2
              have := hfuel w (1 + k2) (childReachD_trans C hxc h2)
              omega
            have hval := ih c (d + 1) v kk m0 hkk huniqc hfuelc
            show setDepthGo C f m0 c (d + 1) v = d + (k0 + 1)
            rw [hval]
            omega
          · have hm1 : setDepthGo C f m0 c (d + 1) v = m0 v :=
              setDepthGo_untouched C f c m0 (d + 1) v hrc
            apply ihc (fun c2 h2 => hsub c2 (List.mem_cons_of_mem c h2))
            rcases hdisj with hl | ⟨c2, hc2, kk, hkk⟩
            · left
              show setDepthGo C f m0 c (d + 1) v = d + (k0 + 1)
              rw [hm1]
              exact hl
            · rcases List.mem_cons.mp hc2 with rfl | hc2b
              · exact absurd ((childReach_iff C c2 v).mpr ⟨kk, hkk⟩) hrc
              · right
                exact ⟨c2, hc2b, kk, hkk⟩
      exact hfold (C x) (fun c hc => hc) (fun q => if q = x then d else m q)
        (Or.inr ⟨c0, hc0, k0, hreach0⟩)

/-- Under duplicate-free ids, a node sits in at most one child list. -/
theorem parent_functional (spans : List SpanRec)
    (hnd : (spans.map (fun s => s.spanId)).Nodup) :
    ∀ j p p2, j ∈ (buildLinks spans).children p → j ∈ (buildLinks spans).children p2 →
      p = p2 := by
  intro j p p2 h1 h2
  have h1b := (mem_children_iff spans hnd p j).mp h1
  have h2b := (mem_children_iff spans hnd p2 j).mp h2
  rw [h1b.2] at h2b
  exact Option.some.inj h2b.2

/-- Under duplicate-free ids, a root appears in no child list. -/
theorem roots_parentless (spans : List SpanRec)
    (hnd : (spans.map (fun s => s.spanId)).Nodup) :
    ∀ r ∈ (buildLinks spans).roots, ∀ p, r ∉ (buildLinks spans).children p := by
  intro r hr p hmem
  have h1 := (mem_roots_iff spans hnd r).mp hr
  have h2 := (mem_children_iff spans hnd p r).mp hmem
  rw [h1.2] at h2
  exact Option.noConfusion h2.2

/-- Levels reachable from a root stay below the span count: the nodes at
levels 0..k of one chain are pairwise distinct indices below the length. -/
theorem reach_bound (spans : List SpanRec)
    (hnd : (spans.map (fun s => s.spanId)).Nodup)
    (r : Nat) (hr : r ∈ (buildLinks spans).roots) :
    ∀ v k, ChildReachD (buildLinks spans).children r v k → k < spans.length := by
  intro v k hreach
  have hnode : ∀ w t, ChildReachD (buildLinks spans).children r w t →
      w < spans.length := by
    intro w t h
    induction h with
    | refl => exact ((mem_roots_iff spans hnd r).mp hr).1
    | step _ hmem _ => exact ((mem_children_iff spans hnd _ _).mp hmem).1
  have hex : ∀ i : Fin (k + 1),
      ∃ w, ChildReachD (buildLinks spans).children r w i.val :=
    fun i => childReachD_prefix (buildLinks spans).children hreach i.val
      (Nat.lt_succ_iff.mp i.isLt)
  have hinj : Function.Injective (fun i : Fin (k + 1) =>
      (⟨Classical.choose (hex i), hnode _ _ (Classical.choose_spec (hex i))⟩ :
        Fin spans.length)) := by
    intro i1 i2 heq
    have h1 := Classical.choose_spec (hex i1)
    have h2 := Classical.choose_spec (hex i2)
    have hw : Classical.choose (hex i1) = Classical.choose (hex i2) :=
      congrArg Fin.val heq
    rw [hw] at h1
    have := childReachD_root_unique (buildLinks spans).children
      (parent_functional spans hnd) i1.val r _ (roots_parentless spans hnd r hr) h1
      i2.val r (roots_parentless spans hnd r hr) h2
    exact Fin.ext this.2
  have hcard := Fintype.card_le_of_injective _ hinj
  simp only [Fintype.card_fin] at hcard
  omega

/-- The final depth map assigns to a node reachable at level `k` from a
root exactly `k`. -/
theorem depthMapOf_correct (spans : List SpanRec)
    (hnd : (spans.map (fun s => s.spanId)).Nodup)
    (r : Nat) (hr : r ∈ (buildLinks spans).roots)
    (v k : Nat) (hreach : ChildReachD (buildLinks spans).children r v k) :
    depthMapOf spans v = k := by
  have hpf := parent_functional spans hnd
  have hparentless := roots_parentless spans hnd
  have hbound := reach_bound spans hnd r hr
  have huniq : ∀ w k1 k2, ChildReachD (buildLinks spans).children r w k1 →
      ChildReachD (buildLinks spans).children r w k2 → k1 = k2 := by
    intro w k1 k2 h1 h2
    exact (childReachD_root_unique (buildLinks spans).children hpf k1 r w
      (hparentless r hr) h1 k2 r (hparentless r hr) h2).2
  show ((buildLinks spans).roots.foldl
      (fun m r2 => setDepthGo (buildLinks spans).children spans.length m r2 0)
      (fun _ => 0)) v = k
  have hfold : ∀ (rs : List Nat), (∀ r2 ∈ rs, r2 ∈ (buildLinks spans).roots) →
      ∀ m0 : Nat → Nat,
        (m0 v = k ∨ ∃ r2 ∈ rs, ∃ kk, ChildReachD (buildLinks spans).children r2 v kk) →
        (rs.foldl (fun m r2 => setDepthGo (buildLinks spans).children spans.length m r2 0)
          m0) v = k := by
    intro rs
    induction rs with
    | nil =>
      intro _ m0 hdisj
      rcases hdisj with hl | ⟨r2, hr2, _⟩
      · exact hl
      · exact absurd hr2 (List.not_mem_nil r2)
    | cons r2 rs ihr =>
      intro hsub m0 hdisj
      rw [List.foldl_cons]
      by_cases hrc : ChildReach (buildLinks spans).children r2 v
      · apply ihr (fun q hq => hsub q (List.mem_cons_of_mem r2 hq))
        left
        obtain ⟨kk, hkk⟩ := (childReach_iff (buildLinks spans).children r2 v).mp hrc
        have hr2R : r2 ∈ (buildLinks spans).roots := hsub r2 (List.mem_cons_self r2 rs)
        have heqrk := childReachD_root_unique (buildLinks spans).children hpf kk r2 v
          (hparentless r2 hr2R) hkk k r (hparentless r hr) hreach
        obtain ⟨rfl, rfl⟩ := heqrk
        show setDepthGo (buildLinks spans).children spans.length m0 r2 0 v = kk
        have := setDepthGo_correct (buildLinks spans).children spans.length r2 0 v kk m0
          hkk huniq hbound
        rw [this]
        exact Nat.zero_add kk
      · have hm1 : setDepthGo (buildLinks spans).children spans.length m0 r2 0 v = m0 v :=
          setDepthGo_untouched (buildLinks spans).children spans.length r2 m0 0 v hrc
        apply ihr (fun q hq => hsub q (List.mem_cons_of_mem r2 hq))
        rcases hdisj with hl | ⟨r3, hr3, kk, hkk⟩
        · left
          show setDepthGo (buildLinks spans).children spans.length m0 r2 0 v = k
          rw [hm1]
          exact hl
        · rcases List.mem_cons.mp hr3 with rfl | hr3b
          · exact absurd ((childReach_iff (buildLinks spans).children r3 v).mpr
              ⟨kk, hkk⟩) hrc
          · right
            exact ⟨r3, hr3b, kk, hkk⟩
  exact hfold (buildLinks spans).roots (fun q hq => hq) (fun _ => 0)
    (Or.inr ⟨r, hr, k, hreach⟩)

/-- C4 (amended: duplicate-free span ids): in the forest `buildTraceTree`
returns, every root has depth 0, every node reachable at level `k` from a
root has depth exactly `k` (so each node's depth is its parent's + 1, as
also stated separately), and a processed span is a root exactly when its
parent id is absent or not found among the processed span ids.  The
duplicate-free hypothesis is necessary: see the counterexample. -/
theorem buildTraceTree_forest_invariants (spans : List SpanRec)
    (hnd : (spans.map (fun s => s.spanId)).Nodup) :
    (∀ r ∈ (buildLinks spans).roots, depthMapOf spans r = 0) ∧
    (∀ r ∈ (buildLinks spans).roots, ∀ v k,
        ChildReachD (buildLinks spans).children r v k → depthMapOf spans v = k) ∧
    (∀ r ∈ (buildLinks spans).roots, ∀ p j,
        ChildReach (buildLinks spans).children r p →
        j ∈ (buildLinks spans).children p →
        depthMapOf spans j = depthMapOf spans p + 1) ∧
    (∀ j, j < spans.length →
        (j ∈ (buildLinks spans).roots ↔ parentIdx spans j = none)) := by
  refine ⟨?_, ?_, ?_, ?_⟩
  · intro r hr
    exact depthMapOf_correct spans hnd r hr r 0 (ChildReachD.refl r)
  · intro r hr v k h
    exact depthMapOf_correct spans hnd r hr v k h
  · intro r hr p j hp hj
    obtain ⟨k, hk⟩ := (childReach_iff (buildLinks spans).children r p).mp hp
    have hdp := depthMapOf_correct spans hnd r hr p k hk
    have hdj := depthMapOf_correct spans hnd r hr j (k + 1) (ChildReachD.step hk hj)
    rw [hdp, hdj]
  · intro j hj
    rw [mem_roots_iff spans hnd j]
    exact ⟨fun h => h.2, fun h => ⟨hj, h⟩⟩

/-- C4 witness: on the duplicate-free chain r → c1 → c2 the hypothesis
holds and the grandchild (node 2, reachable at level 2 from root 0) gets
depth 2. -/
theorem buildTraceTree_forest_invariants_witness :
    (wSpansT.map (fun s => s.spanId)).Nodup ∧ depthMapOf wSpansT 2 = 2 := by
  have h := buildTraceTree_forest_invariants wSpansT (by decide)
  refine ⟨by decide, ?_⟩
  have h0 : (0 : Nat) ∈ (buildLinks wSpansT).roots := by decide
  have h1 : (1 : Nat) ∈ (buildLinks wSpansT).children 0 := by decide
  have h2 : (2 : Nat) ∈ (buildLinks wSpansT).children 1 := by decide
  exact h.2.1 0 h0 2 2 (ChildReachD.step (ChildReachD.step (ChildReachD.refl 0) h1) h2)

/-- C4 counterexample: with a duplicate span id ("a" twice), the roots
push of span 0 resolves through the span map to node 1, which the link
loop also attaches as a child of node 2; the depth pass then leaves a
root with depth 1, refuting "every root has depth 0" for arbitrary span
lists. -/
theorem buildTraceTree_root_depth_counterexample :
    1 ∈ (buildLinks exSpansT).roots ∧ depthMapOf exSpansT 1 = 1 := by decide

end DatadogCli
